import Mathlib

/-!
A verification development for a retrieval-augmented question-answering
pipeline over the Mishnah corpus.  The ingestion pipeline (fetching the 63
tractates, assembling rows, cleaning markup, grouping chapters into
documents) is embedded shallowly from the notebook source; the library
components it delegates to (similarity retriever, token-budgeted chat
memory, embedding index builder, chat turn loop) are modelled from the
specification, as their code is not part of the repository.
-/

/-- Raw hierarchical text of one tractate as returned by the corpus
service: a list of chapters, each a list of unit texts. -/
abbrev RawText := List (List String)

/-- The parsed JSON payload of a successful corpus-service response; the
source reads `data.get('text', [])`, so the `text` field may be absent. -/
structure SefariaData where
  text : Option RawText
deriving DecidableEq, Repr

/-- The corpus service as seen by the fetcher: a GET by URL that either
returns parsed data or fails with a transport/service error
(`requests.exceptions.RequestException`). -/
abbrev FetchService := String → Except String SefariaData

/-- The fixed list of all 63 tractates of the Mishnah
(`MishnahFetcher.mishnah_tractates`). -/
def mishnahTractates : List String :=
  ["Berakhot", "Peah", "Demai", "Kilayim", "Sheviit", "Terumot", "Maasrot",
   "Maaser Sheni", "Challah", "Orlah", "Bikkurim",
   "Shabbat", "Eruvin", "Pesachim", "Shekalim", "Yoma", "Sukkah", "Beitzah",
   "Rosh Hashanah", "Taanit", "Megillah", "Moed Katan", "Chagigah",
   "Yevamot", "Ketubot", "Nedarim", "Nazir", "Sotah", "Gittin", "Kiddushin",
   "Bava Kamma", "Bava Metzia", "Bava Batra", "Sanhedrin", "Makkot",
   "Shevuot", "Eduyot", "Avodah Zarah", "Avot", "Horayot",
   "Zevachim", "Menachot", "Chullin", "Bekhorot", "Arakhin", "Temurah",
   "Keritot", "Meilah", "Tamid", "Middot", "Kinnim",
   "Kelim", "Oholot", "Negaim", "Parah", "Tohorot", "Mikvaot", "Niddah",
   "Makhshirin", "Zavim", "Tevul Yom", "Yadayim", "Oktzin"]

/-- The request URL built by `get_mishnah_tractate_text`. -/
def mishnahUrl (tractate_name : String) : String :=
  "https://www.sefaria.org/api/texts/" ++ ("Mishnah_" ++ tractate_name)

/-- `MishnahFetcher.get_mishnah_tractate_text`: GET the tractate text;
on a transport/service error the exception is caught and `[]` returned;
on success the `text` field is returned, defaulting to `[]`. -/
def get_mishnah_tractate_text (service : FetchService)
    (tractate_name : String) : RawText :=
  match service (mishnahUrl tractate_name) with
  | .ok data => data.text.getD []
  | .error _ => []

/-- `MishnahFetcher.get_all_mishnah_texts`: fetch every tractate of the
fixed list in order, building the tractate-to-chapters mapping (a Python
dict in insertion order, embedded as an association list). -/
def get_all_mishnah_texts (service : FetchService) : List (String × RawText) :=
  mishnahTractates.map (fun tractate =>
    (tractate, get_mishnah_tractate_text service tractate))

/-- One row of `df_mishnah`: tractate name, 1-based chapter index,
1-based mishnah (unit) index, and the unit text. -/
structure Row where
  tractate : String
  chapter : Nat
  mishnah : Nat
  text : String
deriving DecidableEq, Repr

/-- The inner body of the rows-assembly loop for one tractate, including
the `if not chapters or not isinstance(chapters, list): continue` guard
(in this typed embedding `chapters` is always a list, so the guard
reduces to the emptiness test) and the two `enumerate(_, 1)` loops. -/
def rowsOfTractate (tractate : String) (chapters : RawText) : List Row :=
  if chapters.isEmpty then []
  else (chapters.enumFrom 1).flatMap (fun ci =>
    (ci.2.enumFrom 1).map (fun mi => ⟨tractate, ci.1, mi.1, mi.2⟩))

/-- The rows-assembly loop over `texts.items()`. -/
def assembleRows (texts : List (String × RawText)) : List Row :=
  texts.flatMap (fun p => rowsOfTractate p.1 p.2)

/-- Python `str.split(d)` on a character delimiter, embedded on the
character list of the string. -/
def splitOnChar (d : Char) : List Char → List (List Char)
  | [] => [[]]
  | c :: rest =>
    if c = d then [] :: splitOnChar d rest
    else
      match splitOnChar d rest with
      | [] => [[c]]
      | p :: ps => (c :: p) :: ps

/-- The cleaning step `df_mishnah['text'].astype(str).str.split("<").str[0]`:
split on the markup delimiter and keep the first piece.  In this typed
embedding every text is already a string, so `astype(str)` is the
identity. -/
def cleanText (s : String) : String :=
  String.mk ((splitOnChar '<' s.data).headD [])

/-- Applying the cleaning step to every row of the DataFrame. -/
def cleanRows (rows : List Row) : List Row :=
  rows.map (fun r => { r with text := cleanText r.text })

/-- `df_mishnah.dropna(inplace=True)`: drops rows containing a missing
value (NaN).  After `astype(str)` no column of the DataFrame holds a
NaN — the string columns are genuine strings and the index columns are
integers — so `dropna` removes no row; it is the identity on this typed
embedding. -/
def dropna (rows : List Row) : List Row := rows

/-- One chapter-level document: tractate and chapter metadata plus the
concatenated chapter text. -/
structure Doc where
  tractate : String
  chapter : Nat
  text : String
deriving DecidableEq, Repr

/-- The groupby key of a row: `['tractate', 'chapter']`. -/
def rowKey (r : Row) : String × Nat := (r.tractate, r.chapter)

/-- Ordering of groupby keys: pandas `groupby` sorts group keys
lexicographically (tractate name, then chapter index). -/
def keyLe (a b : String × Nat) : Bool :=
  if a.1 < b.1 then true
  else if a.1 = b.1 then decide (a.2 ≤ b.2)
  else false

/-- The sorted distinct group keys produced by
`df_mishnah.groupby(['tractate', 'chapter'])`. -/
def groupKeys (rows : List Row) : List (String × Nat) :=
  ((rows.map rowKey).dedup).mergeSort keyLe

/-- The per-row formatting `f"Mishnah {r['mishnah']}: {r['text']}"`. -/
def formatRow (r : Row) : String :=
  "Mishnah " ++ toString r.mishnah ++ ": " ++ r.text

/-- The chapter text `"\n".join(...)` over one group of rows. -/
def chapterText (group : List Row) : String :=
  String.intercalate "\n" (group.map formatRow)

/-- The `documents` assembly loop: one `Document` per groupby key, with
the group being the rows carrying that key in DataFrame order. -/
def documentsOf (rows : List Row) : List Doc :=
  (groupKeys rows).map (fun k =>
    ⟨k.1, k.2, chapterText (rows.filter (fun r => decide (rowKey r = k)))⟩)

/-- The whole ingestion pipeline from the corpus service to the list of
chapter-level documents handed to the index builder. -/
def pipelineDocs (service : FetchService) : List Doc :=
  documentsOf (dropna (cleanRows (assembleRows (get_all_mishnah_texts service))))

/-- The rows generated for one tractate when the chapter enumeration
starts at `s`; `rowsOfTractate t chapters` is `tractRows t 1 chapters`
(up to the redundant emptiness guard).  The start index is generalized
so that proofs can recurse over the chapter list. -/
def tractRows (t : String) (s : Nat) (chapters : RawText) : List Row :=
  (chapters.enumFrom s).flatMap (fun ci =>
    (ci.2.enumFrom 1).map (fun mi => ⟨t, ci.1, mi.1, mi.2⟩))

/-! ## Components modelled from the specification

The retriever, the conversation memory, the index builder and the chat
turn are library calls in the source
(`index.as_retriever(similarity_top_k=10)`,
`ChatMemoryBuffer.from_defaults(token_limit=8000)`,
`VectorStoreIndex.from_documents`, `ContextChatEngine` /
`chat_interface`); their code is not part of this repository, so they
are modelled from the specification. -/

/-- Modelled from the spec: one retrieval candidate — a Block paired
with its original ingestion position and its similarity score. -/
structure Scored where
  pos : Nat
  doc : Doc
  score : Int
deriving DecidableEq, Repr

/-- Modelled from the spec: ranking of retrieval candidates — descending
similarity score, ties broken by original ingestion order. -/
def rankLe (a b : Scored) : Bool :=
  if b.score < a.score then true
  else if a.score = b.score then decide (a.pos ≤ b.pos)
  else false

/-- Modelled from the spec: the retriever pipeline — score every Block of
the corpus, rank by descending score with stable ties, keep the first
`k`. -/
def retrieveRanked (sim : Doc → Int) (corpus : List Doc) (k : Nat) :
    List Scored :=
  ((corpus.enum.map (fun p => Scored.mk p.1 p.2 (sim p.2))).mergeSort rankLe).take k

/-- Modelled from the spec:
`retrieve(queryText, k) -> ordered list<(Block, score)>`; the query is
abstracted into the similarity function `sim` it induces on Blocks. -/
def retrieve (sim : Doc → Int) (corpus : List Doc) (k : Nat) :
    List (Doc × Int) :=
  (retrieveRanked sim corpus k).map (fun s => (s.doc, s.score))

/-- One conversational turn: a user message and the assistant reply. -/
structure Turn where
  user : String
  assistant : String
deriving DecidableEq, Repr

/-- Total estimated token cost of a sequence of turns, for a pluggable
per-turn cost estimator. -/
def totalCost (cost : Turn → Nat) (ts : List Turn) : Nat :=
  (ts.map cost).sum

/-- Modelled from the spec: the eviction loop of the token-budgeted
conversation memory (`ChatMemoryBuffer.from_defaults(token_limit=8000)`) —
while the total estimated cost exceeds the budget and more than one turn
remains, drop the oldest turn in full. -/
def evictOldest (cost : Turn → Nat) (budget : Nat) : List Turn → List Turn
  | [] => []
  | t :: rest =>
    if rest = [] then [t]
    else if budget < totalCost cost (t :: rest) then evictOldest cost budget rest
    else t :: rest

/-- Modelled from the spec: `append(turn)` on the conversation memory,
followed by eviction. -/
def appendTurn (cost : Turn → Nat) (budget : Nat) (ts : List Turn)
    (t : Turn) : List Turn :=
  evictOldest cost budget (ts ++ [t])

/-- Modelled from the spec: a `BuildError` names the Block whose
embedding failed. -/
structure BuildError where
  block : Doc
deriving DecidableEq, Repr

/-- Modelled from the spec: `buildIndex(blocks) -> Index`
(`VectorStoreIndex.from_documents`) — one embedding-service call per
Block; a per-item failure fails the whole build with a `BuildError`
naming the failing Block, and no partial index is returned. -/
def buildIndex (embed : Doc → Except String (List Int)) :
    List Doc → Except BuildError (List (Doc × List Int))
  | [] => .ok []
  | d :: rest =>
    match embed d with
    | .error _ => .error ⟨d⟩
    | .ok v =>
      match buildIndex embed rest with
      | .error e => .error e
      | .ok idx => .ok ((d, v) :: idx)

/-- A generation-service failure during a conversation turn. -/
structure GenError where
  msg : String
deriving DecidableEq, Repr

/-- The system policy string of the source (`system_prompt`). -/
def system_prompt : String :=
  "You are a Mishnah scholar assistant. Your role is to answer questions strictly based on the provided text from the Mishnah. Cite the tractate, chapter, and mishnah number for your answer. The context provided will be a full chapter; you must identify the specific mishnah within it. If the answer cannot be found in the provided text, you must respond with: \x27I cannot find a teaching in the Mishnah to answer that.\x27"

/-- The per-session conversational state: the bounded memory plus the
read-only indexed corpus. -/
structure ChatState where
  memory : List Turn
  corpus : List Doc
deriving DecidableEq, Repr

/-- Modelled from the spec: prompt composition in the fixed order —
system policy, retrieved Blocks tagged with their section/chapter
metadata, prior turns in chronological order, then the new user
message. -/
def composePrompt (policy : String) (blocks : List Doc)
    (memory : List Turn) (msg : String) : String :=
  policy
    ++ String.intercalate "\n" (blocks.map (fun d =>
        "[" ++ d.tractate ++ " " ++ toString d.chapter ++ "] " ++ d.text))
    ++ String.intercalate "\n" (memory.map (fun t => t.user ++ "\n" ++ t.assistant))
    ++ msg

/-- Modelled from the spec: one conversation turn of the grounded chat
engine (`ContextChatEngine` driven by `chat_interface`) — retrieve,
compose the prompt, call the generation service; on failure surface the
error with the session state untouched, on success append the new turn
to memory under the eviction policy. -/
def chatTurn (gen : String → Except GenError String) (sim : Doc → Int)
    (topK : Nat) (cost : Turn → Nat) (budget : Nat)
    (st : ChatState) (msg : String) : ChatState × Except GenError String :=
  match gen (composePrompt system_prompt
      ((retrieve sim st.corpus topK).map Prod.fst) st.memory msg) with
  | .error e => (st, .error e)
  | .ok ans =>
    ({ st with memory := appendTurn cost budget st.memory ⟨msg, ans⟩ }, .ok ans)

/-- A concrete corpus service used to exercise the pipeline on inputs:
it answers only the request for tractate Peah and fails on every other
URL with a simulated network error. -/
def demoService : FetchService := fun url =>
  if url = mishnahUrl "Peah" then .ok ⟨some [["In the place where penitents stand"]]⟩
  else .error "network unreachable"

/-! ## Properties of the markup-cleaning step -/

theorem splitOnChar_ne_nil (d : Char) (l : List Char) : splitOnChar d l ≠ [] := by
  cases l with
  | nil => simp [splitOnChar]
  | cons c rest =>
    simp only [splitOnChar]
    by_cases h : c = d
    · simp [h]
    · simp only [h, if_false]
      cases hs : splitOnChar d rest <;> simp

theorem splitOnChar_headD (d : Char) (l : List Char) :
    (splitOnChar d l).headD [] = l.takeWhile (fun c => decide (c ≠ d)) := by
  induction l with
  | nil => simp [splitOnChar]
  | cons c rest ih =>
    simp only [splitOnChar, List.takeWhile_cons]
    by_cases h : c = d
    · simp [h]
    · simp only [h, if_false, decide_not]
      cases hs : splitOnChar d rest with
      | nil => exact absurd hs (splitOnChar_ne_nil d rest)
      | cons p ps =>
        rw [hs] at ih
        simp only [List.headD_cons] at ih
        simp [h, ih]

/-- C4: for every raw Unit text, the cleaning step
(`.str.split("<").str[0]`) keeps exactly the longest initial segment of
the text that contains no markup delimiter: the characters kept are the
delimiter-free initial run, they followed by the remainder reassemble the
original text, and a text with no delimiter at all is kept whole. -/
theorem cleanText_truncates_at_first_delimiter (s : String) :
    (cleanText s).data = s.data.takeWhile (fun c => decide (c ≠ '<')) ∧
    (cleanText s).data ++ s.data.dropWhile (fun c => decide (c ≠ '<')) = s.data ∧
    ('<' ∉ s.data → cleanText s = s) := by
  have hdata : (cleanText s).data = s.data.takeWhile (fun c => decide (c ≠ '<')) := by
    simpa [cleanText] using splitOnChar_headD '<' s.data
  refine ⟨hdata, ?_, ?_⟩
  · rw [hdata]; exact List.takeWhile_append_dropWhile _ _
  · intro hno
    apply String.ext
    rw [hdata]
    exact List.takeWhile_eq_self_iff.mpr (fun c hc => by
      simp only [decide_eq_true_eq]
      intro hcd
      exact hno (hcd ▸ hc))

theorem cleanText_truncates_at_first_delimiter_witness :
    (cleanText "Rabbi says<b>burnt").data =
      "Rabbi says<b>burnt".data.takeWhile (fun c => decide (c ≠ '<')) ∧
    (cleanText "Rabbi says<b>burnt").data ++
      "Rabbi says<b>burnt".data.dropWhile (fun c => decide (c ≠ '<')) =
      "Rabbi says<b>burnt".data ∧
    ('<' ∉ "Rabbi says<b>burnt".data → cleanText "Rabbi says<b>burnt" = "Rabbi says<b>burnt") :=
  cleanText_truncates_at_first_delimiter "Rabbi says<b>burnt"

/-! ## Structure of the assembled rows -/

theorem rowsOfTractate_eq_tractRows (t : String) (chapters : RawText) :
    rowsOfTractate t chapters = tractRows t 1 chapters := by
  cases chapters with
  | nil => simp [rowsOfTractate, tractRows]
  | cons ch rest => simp [rowsOfTractate, tractRows]

theorem tractRows_cons (t : String) (s : Nat) (ch : List String) (rest : RawText) :
    tractRows t s (ch :: rest) =
      (ch.enumFrom 1).map (fun mi => (⟨t, s, mi.1, mi.2⟩ : Row)) ++
        tractRows t (s + 1) rest := by
  simp [tractRows, List.enumFrom_cons]

theorem mem_tractRows {t : String} {r : Row} {chapters : RawText} {s : Nat} :
    r ∈ tractRows t s chapters ↔
      ∃ i j, ∃ (hi : i < chapters.length) (hj : j < chapters[i].length),
        r = ⟨t, s + i, j + 1, chapters[i][j]⟩ := by
  constructor
  · intro h
    obtain ⟨ci, hci, hr⟩ := List.mem_flatMap.mp h
    obtain ⟨mi, hmi, hr2⟩ := List.mem_map.mp hr
    obtain ⟨n, ch⟩ := ci
    obtain ⟨m, u⟩ := mi
    obtain ⟨hs, hlt, hch⟩ := List.mem_enumFrom hci
    obtain ⟨hm1, hmlt, hu⟩ := List.mem_enumFrom hmi
    simp only at hs hlt hch hm1 hmlt hu
    have hilt : n - s < chapters.length := by omega
    have hch2 : ch = chapters[n - s] := hch
    clear hch
    subst hch2
    refine ⟨n - s, m - 1, hilt, ?_, ?_⟩
    · have hmlt2 : m < 1 + chapters[n - s].length := hmlt
      omega
    · rw [← hr2]
      simp only [Row.mk.injEq]
      exact ⟨trivial, by omega, by omega, hu⟩
  · rintro ⟨i, j, hi, hj, rfl⟩
    apply List.mem_flatMap.mpr
    refine ⟨(s + i, chapters[i]), ?_, ?_⟩
    · have hlen : i < (chapters.enumFrom s).length := by
        simpa using hi
      have hgl : (chapters.enumFrom s)[i] = (s + i, chapters[i]) :=
        List.getElem_enumFrom chapters s i hlen
      rw [← hgl]
      exact List.getElem_mem hlen
    · apply List.mem_map.mpr
      refine ⟨(j + 1, chapters[i][j]), ?_, rfl⟩
      have hlen : j < (chapters[i].enumFrom 1).length := by
        simpa using hj
      have hgl : (chapters[i].enumFrom 1)[j] = (1 + j, chapters[i][j]) :=
        List.getElem_enumFrom chapters[i] 1 j hlen
      rw [Nat.add_comm 1 j] at hgl
      rw [← hgl]
      exact List.getElem_mem hlen

theorem tractate_of_mem_tractRows {t : String} {r : Row} {chapters : RawText}
    {s : Nat} (h : r ∈ tractRows t s chapters) : r.tractate = t := by
  obtain ⟨i, j, hi, hj, rfl⟩ := mem_tractRows.mp h
  rfl

theorem chapter_lb_of_mem_tractRows {t : String} {r : Row} {chapters : RawText}
    {s : Nat} (h : r ∈ tractRows t s chapters) : s ≤ r.chapter := by
  obtain ⟨i, j, hi, hj, rfl⟩ := mem_tractRows.mp h
  exact Nat.le_add_right s i

theorem assembleRows_cons (p : String × RawText) (rest : List (String × RawText)) :
    assembleRows (p :: rest) = rowsOfTractate p.1 p.2 ++ assembleRows rest := by
  simp [assembleRows]

theorem tractate_mem_of_mem_assembleRows {texts : List (String × RawText)}
    {r : Row} (h : r ∈ assembleRows texts) : r.tractate ∈ texts.map Prod.fst := by
  obtain ⟨p, hp, hr⟩ := List.mem_flatMap.mp h
  rw [rowsOfTractate_eq_tractRows] at hr
  exact List.mem_map.mpr ⟨p, hp, (tractate_of_mem_tractRows hr).symm⟩

theorem filter_tractate_assembleRows {texts : List (String × RawText)}
    {t : String} {chapters : RawText}
    (hnodup : (texts.map Prod.fst).Nodup) (hmem : (t, chapters) ∈ texts) :
    (assembleRows texts).filter (fun r => decide (r.tractate = t)) =
      rowsOfTractate t chapters := by
  induction texts with
  | nil => cases hmem
  | cons p rest ih =>
    rw [assembleRows_cons, List.filter_append]
    simp only [List.map_cons, List.nodup_cons] at hnodup
    obtain ⟨hnot, hnd⟩ := hnodup
    rcases List.mem_cons.mp hmem with heq | hmemr
    · have h1 : (rowsOfTractate p.1 p.2).filter (fun r => decide (r.tractate = t)) =
          rowsOfTractate p.1 p.2 := by
        apply List.filter_eq_self.mpr
        intro r hr
        rw [rowsOfTractate_eq_tractRows] at hr
        have hrt := tractate_of_mem_tractRows hr
        have hp1 : p.1 = t := by rw [← heq]
        simp [hrt, hp1]
      have h2 : (assembleRows rest).filter (fun r => decide (r.tractate = t)) = [] := by
        apply List.filter_eq_nil_iff.mpr
        intro r hr
        have hmem2 := tractate_mem_of_mem_assembleRows hr
        simp only [decide_eq_true_eq]
        intro hrt
        rw [hrt] at hmem2
        have hp1 : p.1 = t := by rw [← heq]
        rw [hp1] at hnot
        exact hnot hmem2
      rw [h1, h2, List.append_nil, ← heq]
    · have hne : p.1 ≠ t := by
        intro hpt
        apply hnot
        rw [hpt]
        exact List.mem_map.mpr ⟨(t, chapters), hmemr, rfl⟩
      have h1 : (rowsOfTractate p.1 p.2).filter (fun r => decide (r.tractate = t)) = [] := by
        apply List.filter_eq_nil_iff.mpr
        intro r hr
        rw [rowsOfTractate_eq_tractRows] at hr
        have hrt := tractate_of_mem_tractRows hr
        simp [hrt, hne]
      rw [h1, List.nil_append]
      exact ih hnd hmemr

theorem filter_chapter_tractRows (t : String) :
    ∀ (chapters : RawText) (s i : Nat) (hi : i < chapters.length),
      (tractRows t s chapters).filter (fun r => decide (r.chapter = s + i)) =
        (chapters[i].enumFrom 1).map (fun mi => (⟨t, s + i, mi.1, mi.2⟩ : Row)) := by
  intro chapters
  induction chapters with
  | nil => intro s i hi; simp at hi
  | cons ch rest ih =>
    intro s i hi
    rw [tractRows_cons, List.filter_append]
    cases i with
    | zero =>
      have h1 : ((ch.enumFrom 1).map (fun mi => (⟨t, s, mi.1, mi.2⟩ : Row))).filter
            (fun r => decide (r.chapter = s + 0)) =
          (ch.enumFrom 1).map (fun mi => (⟨t, s, mi.1, mi.2⟩ : Row)) := by
        apply List.filter_eq_self.mpr
        intro r hr
        obtain ⟨mi, hmi, rfl⟩ := List.mem_map.mp hr
        simp
      have h2 : (tractRows t (s + 1) rest).filter
            (fun r => decide (r.chapter = s + 0)) = [] := by
        apply List.filter_eq_nil_iff.mpr
        intro r hr
        have hlb := chapter_lb_of_mem_tractRows hr
        simp only [decide_eq_true_eq]
        omega
      rw [h1, h2, List.append_nil]
      simp
    | succ i2 =>
      have h1 : ((ch.enumFrom 1).map (fun mi => (⟨t, s, mi.1, mi.2⟩ : Row))).filter
            (fun r => decide (r.chapter = s + (i2 + 1))) = [] := by
        apply List.filter_eq_nil_iff.mpr
        intro r hr
        obtain ⟨mi, hmi, rfl⟩ := List.mem_map.mp hr
        simp only [decide_eq_true_eq]
        omega
      rw [h1, List.nil_append]
      have hi2 : i2 < rest.length := by simpa using hi
      have harith : s + (i2 + 1) = s + 1 + i2 := by omega
      rw [harith, ih (s + 1) i2 hi2]
      simp

theorem filter_rowKey_eq (rows : List Row) (t : String) (k : Nat) :
    rows.filter (fun r => decide (rowKey r = (t, k))) =
      (rows.filter (fun r => decide (r.tractate = t))).filter
        (fun r => decide (r.chapter = k)) := by
  rw [List.filter_filter]
  apply List.filter_congr
  intro r _
  have hiff : rowKey r = (t, k) ↔ (r.chapter = k ∧ r.tractate = t) := by
    simp [rowKey, Prod.ext_iff, and_comm]
  calc decide (rowKey r = (t, k))
      = decide (r.chapter = k ∧ r.tractate = t) := decide_eq_decide.mpr hiff
    _ = (decide (r.chapter = k) && decide (r.tractate = t)) := Bool.decide_and _ _

theorem cleanRows_filter_key (rows : List Row) (t : String) (k : Nat) :
    (cleanRows rows).filter (fun r => decide (rowKey r = (t, k))) =
      (rows.filter (fun r => decide (rowKey r = (t, k)))).map
        (fun r => { r with text := cleanText r.text }) := by
  unfold cleanRows
  rw [List.filter_map]
  congr 1

/-! ## Structure of the grouped documents -/

theorem mem_groupKeys {rows : List Row} {k : String × Nat} :
    k ∈ groupKeys rows ↔ ∃ r ∈ rows, rowKey r = k := by
  unfold groupKeys
  rw [(List.mergeSort_perm _ _).mem_iff, List.mem_dedup]
  exact List.mem_map

theorem groupKeys_nodup (rows : List Row) : (groupKeys rows).Nodup :=
  (List.mergeSort_perm _ _).symm.nodup (List.nodup_dedup _)

theorem mem_documentsOf {rows : List Row} {d : Doc} :
    d ∈ documentsOf rows ↔
      ∃ k ∈ groupKeys rows,
        d = ⟨k.1, k.2, chapterText (rows.filter (fun r => decide (rowKey r = k)))⟩ := by
  unfold documentsOf
  rw [List.mem_map]
  constructor
  · rintro ⟨k, hk, rfl⟩
    exact ⟨k, hk, rfl⟩
  · rintro ⟨k, hk, rfl⟩
    exact ⟨k, hk, rfl⟩

theorem documentsOf_key_map (rows : List Row) :
    (documentsOf rows).map (fun d => (d.tractate, d.chapter)) = groupKeys rows := by
  unfold documentsOf
  rw [List.map_map]
  have h : ∀ k ∈ groupKeys rows,
      ((fun d : Doc => (d.tractate, d.chapter)) ∘ (fun k : String × Nat =>
        (⟨k.1, k.2, chapterText (rows.filter (fun r => decide (rowKey r = k)))⟩ : Doc))) k
        = id k := by
    intro k _
    exact Prod.mk.eta
  rw [List.map_congr_left h, List.map_id]

theorem documentsOf_keys_nodup (rows : List Row) :
    ((documentsOf rows).map (fun d => (d.tractate, d.chapter))).Nodup := by
  rw [documentsOf_key_map]
  exact groupKeys_nodup rows

/-- The filtered group of the cleaned pipeline rows for one
(tractate, chapter) key is exactly that chapter of the raw corpus, in
ascending unit order, with each unit text cleaned. -/
theorem pipeline_group_rows {texts : List (String × RawText)} {t : String}
    {chapters : RawText} (hnodup : (texts.map Prod.fst).Nodup)
    (hmem : (t, chapters) ∈ texts) {i : Nat} (hi : i < chapters.length) :
    (dropna (cleanRows (assembleRows texts))).filter
        (fun r => decide (rowKey r = (t, i + 1))) =
      (chapters[i].enumFrom 1).map
        (fun mi => (⟨t, i + 1, mi.1, cleanText mi.2⟩ : Row)) := by
  show (cleanRows (assembleRows texts)).filter
        (fun r => decide (rowKey r = (t, i + 1))) = _
  rw [cleanRows_filter_key, filter_rowKey_eq,
    filter_tractate_assembleRows hnodup hmem, rowsOfTractate_eq_tractRows]
  have harith : i + 1 = 1 + i := by omega
  rw [harith, filter_chapter_tractRows t chapters 1 i hi, List.map_map]
  rfl

/-- C3: for every (section, chapter) of the raw corpus holding at least
one valid Unit, the pipeline produces a Block carrying exactly that
(section, chapter) metadata pair, every such Block's text is the
concatenation of that chapter's cleaned unit texts in ascending unit
order — each prefixed by its 1-based unit number and joined by the
newline separator, so each Unit's cleaned text occurs exactly once — and
no two Blocks share a (section, chapter) pair, so no Block spans two
chapters or sections. -/
theorem block_assembly_faithful (texts : List (String × RawText))
    (hnodup : (texts.map Prod.fst).Nodup) (t : String) (chapters : RawText)
    (hmem : (t, chapters) ∈ texts) (i : Nat) (hi : i < chapters.length)
    (hvalid : ∃ u ∈ chapters[i], cleanText u ≠ "") :
    (∃ d ∈ documentsOf (dropna (cleanRows (assembleRows texts))),
        d.tractate = t ∧ d.chapter = i + 1) ∧
    (∀ d ∈ documentsOf (dropna (cleanRows (assembleRows texts))),
        d.tractate = t → d.chapter = i + 1 →
          d.text = String.intercalate "\n" ((chapters[i].enumFrom 1).map
            (fun mi => "Mishnah " ++ toString mi.1 ++ ": " ++ cleanText mi.2))) ∧
    ((documentsOf (dropna (cleanRows (assembleRows texts)))).map
        (fun d => (d.tractate, d.chapter))).Nodup := by
  have hgrp := pipeline_group_rows hnodup hmem hi
  have hne : chapters[i] ≠ [] := by
    rcases hvalid with ⟨u, hu, _⟩
    intro hnil
    rw [hnil] at hu
    cases hu
  have hkey : (t, i + 1) ∈ groupKeys (dropna (cleanRows (assembleRows texts))) := by
    apply mem_groupKeys.mpr
    have hfne : (dropna (cleanRows (assembleRows texts))).filter
        (fun r => decide (rowKey r = (t, i + 1))) ≠ [] := by
      rw [hgrp]
      simp only [ne_eq, List.map_eq_nil_iff]
      intro henil
      apply hne
      have hlen := congrArg List.length henil
      simpa using hlen
    obtain ⟨r, hr⟩ := List.exists_mem_of_ne_nil _ hfne
    obtain ⟨hrmem, hrkey⟩ := List.mem_filter.mp hr
    exact ⟨r, hrmem, of_decide_eq_true hrkey⟩
  refine ⟨?_, ?_, documentsOf_keys_nodup _⟩
  · exact ⟨⟨t, i + 1, chapterText ((dropna (cleanRows (assembleRows texts))).filter
        (fun r => decide (rowKey r = (t, i + 1))))⟩,
      mem_documentsOf.mpr ⟨(t, i + 1), hkey, rfl⟩, rfl, rfl⟩
  · intro d hd hdt hdc
    obtain ⟨k, hk, rfl⟩ := mem_documentsOf.mp hd
    obtain ⟨k1, k2⟩ := k
    change k1 = t at hdt
    change k2 = i + 1 at hdc
    have hdt2 : t = k1 := hdt.symm
    have hdc2 : i + 1 = k2 := hdc.symm
    subst hdt2
    subst hdc2
    show chapterText ((dropna (cleanRows (assembleRows texts))).filter
      (fun r => decide (rowKey r = (t, i + 1)))) = _
    rw [hgrp]
    unfold chapterText
    rw [List.map_map]
    rfl

theorem block_assembly_faithful_witness :
    (∃ d ∈ documentsOf (dropna (cleanRows (assembleRows
        [("Avot", [["Moses received the Torah<b>x", "Joshua"]])]))),
        d.tractate = "Avot" ∧ d.chapter = 0 + 1) ∧
    (∀ d ∈ documentsOf (dropna (cleanRows (assembleRows
        [("Avot", [["Moses received the Torah<b>x", "Joshua"]])]))),
        d.tractate = "Avot" → d.chapter = 0 + 1 →
          d.text = String.intercalate "\n"
            ((([["Moses received the Torah<b>x", "Joshua"]] : RawText)[0].enumFrom 1).map
              (fun mi => "Mishnah " ++ toString mi.1 ++ ": " ++ cleanText mi.2))) ∧
    ((documentsOf (dropna (cleanRows (assembleRows
        [("Avot", [["Moses received the Torah<b>x", "Joshua"]])])))).map
        (fun d => (d.tractate, d.chapter))).Nodup :=
  block_assembly_faithful
    [("Avot", [["Moses received the Torah<b>x", "Joshua"]])]
    (by decide) "Avot" [["Moses received the Torah<b>x", "Joshua"]]
    (by decide) 0 (by decide)
    ⟨"Moses received the Torah<b>x", by decide, by decide⟩

/-- C10: a row is produced by the assembly loop exactly when it is a
unit of the fetched nested arrays, and its recorded chapter and mishnah
indices are the 1-based positions of that unit (first chapter of a
section is chapter 1, first unit of a chapter is unit 1). -/
theorem assembled_indices_are_positions (texts : List (String × RawText))
    (r : Row) :
    r ∈ assembleRows texts ↔
      ∃ chapters, (r.tractate, chapters) ∈ texts ∧
        ∃ i j, ∃ (hi : i < chapters.length) (hj : j < chapters[i].length),
          r.chapter = i + 1 ∧ r.mishnah = j + 1 ∧ r.text = chapters[i][j] := by
  constructor
  · intro h
    obtain ⟨p, hp, hr⟩ := List.mem_flatMap.mp h
    rw [rowsOfTractate_eq_tractRows] at hr
    obtain ⟨i, j, hi, hj, hreq⟩ := mem_tractRows.mp hr
    subst hreq
    refine ⟨p.2, ?_, i, j, hi, hj, ?_, rfl, rfl⟩
    · simpa using hp
    · show 1 + i = i + 1
      omega
  · rintro ⟨chapters, hmem, i, j, hi, hj, hc, hm, ht⟩
    apply List.mem_flatMap.mpr
    refine ⟨(r.tractate, chapters), hmem, ?_⟩
    rw [rowsOfTractate_eq_tractRows]
    apply mem_tractRows.mpr
    refine ⟨i, j, hi, hj, ?_⟩
    calc r = ⟨r.tractate, r.chapter, r.mishnah, r.text⟩ := rfl
      _ = ⟨r.tractate, 1 + i, j + 1, chapters[i][j]⟩ := by
          rw [hc, hm, ht, Nat.add_comm 1 i]

theorem assembled_indices_are_positions_witness :
    (⟨"Avot", 1, 2, "Joshua"⟩ : Row) ∈
      assembleRows [("Avot", [["Moses", "Joshua"]])] :=
  (assembled_indices_are_positions [("Avot", [["Moses", "Joshua"]])]
      ⟨"Avot", 1, 2, "Joshua"⟩).mpr
    ⟨[["Moses", "Joshua"]], by decide, 0, 1, by decide, by decide, rfl, rfl, rfl⟩

/-- C9: `get_all_mishnah_texts` always produces a mapping whose keys are
exactly the fixed 63-tractate list, in that order; a tractate whose
fetch failed is still present as a key, mapped to the empty chapter
list. -/
theorem fetchAll_keys_fixed (service : FetchService) (t : String) (e : String)
    (ht : t ∈ mishnahTractates) (hfail : service (mishnahUrl t) = .error e) :
    (get_all_mishnah_texts service).map Prod.fst = mishnahTractates ∧
    mishnahTractates.length = 63 ∧
    (t, ([] : RawText)) ∈ get_all_mishnah_texts service := by
  refine ⟨?_, rfl, ?_⟩
  · unfold get_all_mishnah_texts
    rw [List.map_map]
    have h : ∀ x ∈ mishnahTractates,
        ((Prod.fst ∘ fun tractate =>
          (tractate, get_mishnah_tractate_text service tractate)) x) = id x :=
      fun x _ => rfl
    rw [List.map_congr_left h, List.map_id]
  · unfold get_all_mishnah_texts
    apply List.mem_map.mpr
    refine ⟨t, ht, ?_⟩
    unfold get_mishnah_tractate_text
    rw [hfail]

theorem fetchAll_keys_fixed_witness :
    (get_all_mishnah_texts (fun _ => Except.error "network down")).map Prod.fst =
      mishnahTractates ∧
    mishnahTractates.length = 63 ∧
    ("Berakhot", ([] : RawText)) ∈
      get_all_mishnah_texts (fun _ => Except.error "network down") :=
  fetchAll_keys_fixed (fun _ => Except.error "network down") "Berakhot"
    "network down" (by decide) rfl

/-- C1: a transport/service error on one tractate is caught and turned
into an empty result for that tractate only, and the full ingestion
(a total function, so it completes without raising) yields no Block for
the failed tractate while still yielding Blocks for a tractate whose
fetch succeeded with content. -/
theorem fetch_failure_isolated (service : FetchService) (t t2 : String)
    (e : String) (data : SefariaData)
    (ht : t ∈ mishnahTractates) (ht2 : t2 ∈ mishnahTractates)
    (hfail : service (mishnahUrl t) = .error e)
    (hok : service (mishnahUrl t2) = .ok data)
    (hcontent : ∃ ch ∈ data.text.getD [], ch ≠ []) :
    (t, ([] : RawText)) ∈ get_all_mishnah_texts service ∧
    (∀ d ∈ pipelineDocs service, d.tractate ≠ t) ∧
    (∃ d ∈ pipelineDocs service, d.tractate = t2) := by
  have hget : get_mishnah_tractate_text service t = [] := by
    unfold get_mishnah_tractate_text
    rw [hfail]
  have hrows : ∀ r ∈ assembleRows (get_all_mishnah_texts service),
      r.tractate ≠ t := by
    intro r hr hrt
    obtain ⟨p, hp, hr2⟩ := List.mem_flatMap.mp hr
    obtain ⟨tr, htr, heq⟩ := List.mem_map.mp hp
    subst heq
    rw [rowsOfTractate_eq_tractRows] at hr2
    have htrac := tractate_of_mem_tractRows hr2
    have htrt : tr = t := htrac.symm.trans hrt
    rw [htrt, hget] at hr2
    simp [tractRows] at hr2
  have hrows2 : ∀ r ∈ dropna (cleanRows (assembleRows
      (get_all_mishnah_texts service))), r.tractate ≠ t := by
    intro r hr
    simp only [dropna, cleanRows] at hr
    obtain ⟨r0, hr0, rfl⟩ := List.mem_map.mp hr
    exact hrows r0 hr0
  refine ⟨?_, ?_, ?_⟩
  · unfold get_all_mishnah_texts
    exact List.mem_map.mpr ⟨t, ht, by rw [hget]⟩
  · intro d hd
    obtain ⟨k, hk, rfl⟩ := mem_documentsOf.mp hd
    obtain ⟨r, hr, hrk⟩ := mem_groupKeys.mp hk
    show k.1 ≠ t
    rw [← hrk]
    exact hrows2 r hr
  · obtain ⟨ch, hch, hchne⟩ := hcontent
    obtain ⟨ci, hci, hcheq⟩ := List.mem_iff_getElem.mp hch
    have hj : 0 < (data.text.getD [])[ci].length := by
      rw [List.length_pos]
      intro hnil
      rw [hcheq] at hnil
      exact hchne hnil
    have hpmem : (t2, data.text.getD []) ∈ get_all_mishnah_texts service := by
      unfold get_all_mishnah_texts
      apply List.mem_map.mpr
      refine ⟨t2, ht2, ?_⟩
      unfold get_mishnah_tractate_text
      rw [hok]
    have hr0 : (⟨t2, 1 + ci, 0 + 1, (data.text.getD [])[ci][0]⟩ : Row) ∈
        assembleRows (get_all_mishnah_texts service) := by
      apply List.mem_flatMap.mpr
      refine ⟨(t2, data.text.getD []), hpmem, ?_⟩
      rw [rowsOfTractate_eq_tractRows]
      exact mem_tractRows.mpr ⟨ci, 0, hci, hj, rfl⟩
    have hr1 : (⟨t2, 1 + ci, 0 + 1, cleanText ((data.text.getD [])[ci][0])⟩ : Row) ∈
        dropna (cleanRows (assembleRows (get_all_mishnah_texts service))) := by
      simp only [dropna, cleanRows]
      exact List.mem_map.mpr ⟨_, hr0, rfl⟩
    have hkey : (t2, 1 + ci) ∈ groupKeys (dropna (cleanRows (assembleRows
        (get_all_mishnah_texts service)))) :=
      mem_groupKeys.mpr ⟨_, hr1, rfl⟩
    exact ⟨_, mem_documentsOf.mpr ⟨(t2, 1 + ci), hkey, rfl⟩, rfl⟩

theorem fetch_failure_isolated_witness :
    ("Berakhot", ([] : RawText)) ∈ get_all_mishnah_texts demoService ∧
    (∀ d ∈ pipelineDocs demoService, d.tractate ≠ "Berakhot") ∧
    (∃ d ∈ pipelineDocs demoService, d.tractate = "Peah") :=
  fetch_failure_isolated demoService "Berakhot" "Peah" "network unreachable"
    ⟨some [["In the place where penitents stand"]]⟩
    (by decide) (by decide) rfl rfl
    ⟨["In the place where penitents stand"], by decide, by decide⟩

/-- C2 (code behavior at the failing input): a chapter whose only Unit
has empty text still contributes a Block, and the empty Unit appears in
that Block's text — `dropna` removes only NaN values, and after
`astype(str)` there are none, so empty-text Units are never dropped. -/
theorem empty_unit_reaches_index :
    documentsOf (dropna (cleanRows (assembleRows [("Berakhot", [[""]])]))) =
      [⟨"Berakhot", 1, "Mishnah 1: "⟩] := by
  have h1 : dropna (cleanRows (assembleRows [("Berakhot", [[""]])])) =
      [⟨"Berakhot", 1, 1, ""⟩] := by rfl
  rw [h1]
  unfold documentsOf groupKeys
  have h2 : (([(⟨"Berakhot", 1, 1, ""⟩ : Row)]).map rowKey).dedup =
      [("Berakhot", 1)] := by rfl
  rw [h2, List.mergeSort_singleton]
  rfl

/-! ## Conversation-memory eviction -/

theorem evictOldest_spec (cost : Turn → Nat) (budget : Nat) :
    ∀ ts : List Turn, ts ≠ [] →
      evictOldest cost budget ts ≠ [] ∧
      (evictOldest cost budget ts).IsSuffix ts ∧
      (totalCost cost (evictOldest cost budget ts) ≤ budget ∨
        (evictOldest cost budget ts).length = 1) := by
  intro ts
  induction ts with
  | nil => intro h; exact absurd rfl h
  | cons t rest ih =>
    intro _
    by_cases hrest : rest = []
    · subst hrest
      simp only [evictOldest, if_pos rfl]
      exact ⟨by simp, List.suffix_refl _, Or.inr rfl⟩
    · simp only [evictOldest, if_neg hrest]
      by_cases hb : budget < totalCost cost (t :: rest)
      · rw [if_pos hb]
        obtain ⟨h1, h2, h3⟩ := ih hrest
        exact ⟨h1, h2.trans (List.suffix_cons t rest), h3⟩
      · rw [if_neg hb]
        exact ⟨by simp, List.suffix_refl _, Or.inl (by omega)⟩

theorem getLast?_of_suffix {α : Type} {s l : List α}
    (h : s.IsSuffix l) (hne : s ≠ []) : s.getLast? = l.getLast? := by
  obtain ⟨pre, rfl⟩ := h
  rw [List.getLast?_append]
  cases hs : s.getLast? with
  | none => exact absurd (List.getLast?_eq_none_iff.mp hs) hne
  | some x => rw [Option.or_some]

/-- C6: after every `append`, eviction removes only the oldest whole
turns (the result is a suffix of the appended sequence), the most
recent turn is never evicted, the retained cost either fits the budget
or exactly one turn (the protected most recent one) remains, and the
total cost of the retained turns excluding the most recent one never
exceeds the budget. -/
theorem memory_eviction_safe (cost : Turn → Nat) (budget : Nat)
    (ts : List Turn) (t : Turn) :
    (appendTurn cost budget ts t).getLast? = some t ∧
    totalCost cost (appendTurn cost budget ts t).dropLast ≤ budget ∧
    (appendTurn cost budget ts t).IsSuffix (ts ++ [t]) ∧
    (totalCost cost (appendTurn cost budget ts t) ≤ budget ∨
      (appendTurn cost budget ts t).length = 1) := by
  have hne : ts ++ [t] ≠ [] := by simp
  obtain ⟨h1, h2, h3⟩ := evictOldest_spec cost budget (ts ++ [t]) hne
  have hlast : (appendTurn cost budget ts t).getLast? = some t := by
    unfold appendTurn
    rw [getLast?_of_suffix h2 h1, List.getLast?_concat]
  refine ⟨hlast, ?_, h2, h3⟩
  rcases h3 with hle | hone
  · have hsub : totalCost cost (appendTurn cost budget ts t).dropLast ≤
        totalCost cost (appendTurn cost budget ts t) := by
      unfold totalCost
      exact List.Sublist.sum_le_sum
        ((List.dropLast_sublist _).map cost) (by simp)
    exact le_trans hsub hle
  · obtain ⟨a, ha⟩ := List.length_eq_one.mp hone
    unfold appendTurn
    rw [ha]
    simp [totalCost]

theorem memory_eviction_safe_witness :
    (appendTurn (fun tn => tn.user.length + tn.assistant.length) 8
        [⟨"hello", "shalom"⟩, ⟨"who", "Hillel"⟩] ⟨"why", "Torah"⟩).getLast? =
      some ⟨"why", "Torah"⟩ ∧
    totalCost (fun tn => tn.user.length + tn.assistant.length)
      (appendTurn (fun tn => tn.user.length + tn.assistant.length) 8
        [⟨"hello", "shalom"⟩, ⟨"who", "Hillel"⟩] ⟨"why", "Torah"⟩).dropLast ≤ 8 ∧
    (appendTurn (fun tn => tn.user.length + tn.assistant.length) 8
        [⟨"hello", "shalom"⟩, ⟨"who", "Hillel"⟩] ⟨"why", "Torah"⟩).IsSuffix
      ([⟨"hello", "shalom"⟩, ⟨"who", "Hillel"⟩] ++ [⟨"why", "Torah"⟩]) ∧
    (totalCost (fun tn => tn.user.length + tn.assistant.length)
        (appendTurn (fun tn => tn.user.length + tn.assistant.length) 8
          [⟨"hello", "shalom"⟩, ⟨"who", "Hillel"⟩] ⟨"why", "Torah"⟩) ≤ 8 ∨
      (appendTurn (fun tn => tn.user.length + tn.assistant.length) 8
        [⟨"hello", "shalom"⟩, ⟨"who", "Hillel"⟩] ⟨"why", "Torah"⟩).length = 1) :=
  memory_eviction_safe (fun tn => tn.user.length + tn.assistant.length) 8
    [⟨"hello", "shalom"⟩, ⟨"who", "Hillel"⟩] ⟨"why", "Torah"⟩

/-! ## Retrieval ranking -/

theorem rankLe_iff (a b : Scored) : rankLe a b = true ↔
    (b.score < a.score ∨ (a.score = b.score ∧ a.pos ≤ b.pos)) := by
  unfold rankLe
  split_ifs with h1 h2
  · simp [h1]
  · simp [h1, h2]
  · simp [h1, h2]

theorem rankLe_total (a b : Scored) : (rankLe a b || rankLe b a) = true := by
  rw [Bool.or_eq_true, rankLe_iff, rankLe_iff]
  omega

theorem rankLe_trans (a b c : Scored) :
    rankLe a b = true → rankLe b c = true → rankLe a c = true := by
  rw [rankLe_iff, rankLe_iff, rankLe_iff]
  omega

theorem retrieveRanked_sorted (sim : Doc → Int) (corpus : List Doc) (k : Nat) :
    List.Pairwise (fun a b : Scored =>
      b.score < a.score ∨ (a.score = b.score ∧ a.pos < b.pos))
      (retrieveRanked sim corpus k) := by
  unfold retrieveRanked
  have hle : List.Pairwise (fun a b => rankLe a b = true)
      ((corpus.enum.map (fun p => Scored.mk p.1 p.2 (sim p.2))).mergeSort rankLe) :=
    List.sorted_mergeSort rankLe_trans rankLe_total _
  have hbase : (corpus.enum.map (fun p => Scored.mk p.1 p.2 (sim p.2))).map
      Scored.pos = List.range corpus.length := by
    rw [List.map_map]
    have h : ∀ p ∈ corpus.enum,
        (Scored.pos ∘ fun p => Scored.mk p.1 p.2 (sim p.2)) p = Prod.fst p :=
      fun p _ => rfl
    rw [List.map_congr_left h, List.enum_map_fst]
  have hposnd : (((corpus.enum.map (fun p => Scored.mk p.1 p.2 (sim p.2))).mergeSort
      rankLe).map Scored.pos).Nodup := by
    have hperm := (List.mergeSort_perm
      (corpus.enum.map (fun p => Scored.mk p.1 p.2 (sim p.2))) rankLe).map Scored.pos
    exact hperm.symm.nodup (hbase ▸ List.nodup_range corpus.length)
  have hpos : List.Pairwise (fun a b : Scored => a.pos ≠ b.pos)
      ((corpus.enum.map (fun p => Scored.mk p.1 p.2 (sim p.2))).mergeSort rankLe) :=
    List.pairwise_map.mp hposnd
  have himp : List.Pairwise (fun a b : Scored =>
      b.score < a.score ∨ (a.score = b.score ∧ a.pos < b.pos))
      ((corpus.enum.map (fun p => Scored.mk p.1 p.2 (sim p.2))).mergeSort rankLe) := by
    refine List.Pairwise.imp ?_ (hle.and hpos)
    intro a b hab
    obtain ⟨h1, h2⟩ := hab
    rw [rankLe_iff] at h1
    omega
  exact List.Pairwise.sublist (List.take_sublist _ _) himp

/-- C5: the retriever, modelled from the spec, returns at most `k`
results, ranked strictly descending by score with ties broken by the
original ingestion position, with output scores weakly descending; and
when `k` is at least the corpus size it returns every Block (as a
permutation of the corpus) rather than an error.  Determinism for a
fixed index and query holds by construction: `retrieve` is a pure
function of the similarity function, the corpus and `k`. -/
theorem retrieve_contract (sim : Doc → Int) (corpus : List Doc) (k : Nat) :
    (retrieve sim corpus k).length ≤ k ∧
    List.Pairwise (fun a b : Scored =>
      b.score < a.score ∨ (a.score = b.score ∧ a.pos < b.pos))
      (retrieveRanked sim corpus k) ∧
    List.Pairwise (fun a b : Doc × Int => b.2 ≤ a.2) (retrieve sim corpus k) ∧
    (corpus.length ≤ k → ((retrieve sim corpus k).map Prod.fst).Perm corpus) := by
  refine ⟨?_, retrieveRanked_sorted sim corpus k, ?_, ?_⟩
  · unfold retrieve
    rw [List.length_map]
    exact List.length_take_le _ _
  · unfold retrieve
    rw [List.pairwise_map]
    refine List.Pairwise.imp ?_ (retrieveRanked_sorted sim corpus k)
    intro a b hab
    rcases hab with h | ⟨h, _⟩
    · exact le_of_lt h
    · exact le_of_eq h.symm
  · intro hk
    unfold retrieve retrieveRanked
    have hlen : ((corpus.enum.map (fun p => Scored.mk p.1 p.2 (sim p.2))).mergeSort
        rankLe).length = corpus.length := by
      rw [List.length_mergeSort, List.length_map, List.enum_length]
    rw [List.take_of_length_le (le_trans (le_of_eq hlen) hk), List.map_map]
    have hcomp : (Prod.fst ∘ fun s : Scored => (s.doc, s.score)) = Scored.doc := rfl
    rw [hcomp]
    have hperm := (List.mergeSort_perm
      (corpus.enum.map (fun p => Scored.mk p.1 p.2 (sim p.2))) rankLe).map Scored.doc
    have hbase : (corpus.enum.map (fun p => Scored.mk p.1 p.2 (sim p.2))).map
        Scored.doc = corpus := by
      rw [List.map_map]
      have h : ∀ p ∈ corpus.enum,
          (Scored.doc ∘ fun p => Scored.mk p.1 p.2 (sim p.2)) p = Prod.snd p :=
        fun p _ => rfl
      rw [List.map_congr_left h, List.enum_map_snd]
    rw [hbase] at hperm
    exact hperm

theorem retrieve_contract_witness :
    (retrieve (fun d => Int.ofNat d.text.length) [⟨"Avot", 1, "aa"⟩, ⟨"Peah", 2, "b"⟩] 5).length ≤ 5 ∧
    List.Pairwise (fun a b : Scored =>
      b.score < a.score ∨ (a.score = b.score ∧ a.pos < b.pos))
      (retrieveRanked (fun d => Int.ofNat d.text.length)
        [⟨"Avot", 1, "aa"⟩, ⟨"Peah", 2, "b"⟩] 5) ∧
    List.Pairwise (fun a b : Doc × Int => b.2 ≤ a.2)
      (retrieve (fun d => Int.ofNat d.text.length)
        [⟨"Avot", 1, "aa"⟩, ⟨"Peah", 2, "b"⟩] 5) ∧
    (([(⟨"Avot", 1, "aa"⟩ : Doc), ⟨"Peah", 2, "b"⟩] : List Doc).length ≤ 5 →
      ((retrieve (fun d => Int.ofNat d.text.length)
        [⟨"Avot", 1, "aa"⟩, ⟨"Peah", 2, "b"⟩] 5).map Prod.fst).Perm
        [⟨"Avot", 1, "aa"⟩, ⟨"Peah", 2, "b"⟩]) :=
  retrieve_contract (fun d => Int.ofNat d.text.length)
    [⟨"Avot", 1, "aa"⟩, ⟨"Peah", 2, "b"⟩] 5

/-! ## Index building and chat-turn error handling -/

/-- C8: if the embedding service fails on a single Block of the list
(and succeeds on every other Block), the whole build fails with a
`BuildError` naming that Block; since the result is an error, no
partial Index is returned. -/
theorem buildIndex_fails_on_failing_block
    (embed : Doc → Except String (List Int)) (blocks : List Doc)
    (d : Doc) (msg : String)
    (hmem : d ∈ blocks) (hfail : embed d = .error msg)
    (hok : ∀ b ∈ blocks, b ≠ d → ∃ v, embed b = .ok v) :
    buildIndex embed blocks = .error ⟨d⟩ := by
  induction blocks with
  | nil => cases hmem
  | cons b rest ih =>
    by_cases hbd : b = d
    · subst hbd
      unfold buildIndex
      rw [hfail]
    · have hdrest : d ∈ rest := by
        rcases List.mem_cons.mp hmem with heq | hr
        · exact absurd heq.symm hbd
        · exact hr
      obtain ⟨v, hv⟩ := hok b (List.mem_cons_self b rest) hbd
      have hrec := ih hdrest
        (fun b2 hb2 hne => hok b2 (List.mem_cons_of_mem b hb2) hne)
      unfold buildIndex
      rw [hv, hrec]

theorem buildIndex_fails_on_failing_block_witness :
    buildIndex
      (fun b => if b.chapter = 2 then .error "embedding service down" else .ok [1])
      [⟨"Avot", 1, "x"⟩, ⟨"Avot", 2, "y"⟩, ⟨"Avot", 3, "z"⟩] =
      .error ⟨⟨"Avot", 2, "y"⟩⟩ :=
  buildIndex_fails_on_failing_block
    (fun b => if b.chapter = 2 then .error "embedding service down" else .ok [1])
    [⟨"Avot", 1, "x"⟩, ⟨"Avot", 2, "y"⟩, ⟨"Avot", 3, "z"⟩]
    ⟨"Avot", 2, "y"⟩ "embedding service down"
    (by decide) rfl
    (by
      intro b hb hne
      rcases List.mem_cons.mp hb with h1 | hb2
      · exact ⟨[1], by rw [h1]; rfl⟩
      · rcases List.mem_cons.mp hb2 with h2 | hb3
        · exact absurd h2 hne
        · rcases List.mem_cons.mp hb3 with h3 | hb4
          · exact ⟨[1], by rw [h3]; rfl⟩
          · cases hb4)

/-- C7: when the generation service fails on the composed prompt of a
conversation turn, the failure is surfaced to the caller as a
`GenerationError` outcome for that turn only, and the session state —
its ConversationMemory and its read-only indexed corpus — is returned
unchanged; memory is appended only after a successful generation. -/
theorem generation_failure_leaves_session_intact
    (gen : String → Except GenError String) (sim : Doc → Int) (topK : Nat)
    (cost : Turn → Nat) (budget : Nat) (st : ChatState) (msg : String)
    (e : GenError)
    (hfail : gen (composePrompt system_prompt
        ((retrieve sim st.corpus topK).map Prod.fst) st.memory msg) = .error e) :
    chatTurn gen sim topK cost budget st msg = (st, .error e) := by
  unfold chatTurn
  rw [hfail]

theorem generation_failure_leaves_session_intact_witness :
    chatTurn (fun _ => .error ⟨"model overloaded"⟩) (fun _ => 0) 10
      (fun tn => tn.user.length + tn.assistant.length) 8000
      ⟨[⟨"hello", "shalom"⟩], [⟨"Avot", 1, "Moses received the Torah"⟩]⟩
      "Who is wealthy?" =
      (⟨[⟨"hello", "shalom"⟩], [⟨"Avot", 1, "Moses received the Torah"⟩]⟩,
        .error ⟨"model overloaded"⟩) :=
  generation_failure_leaves_session_intact
    (fun _ => .error ⟨"model overloaded"⟩) (fun _ => 0) 10
    (fun tn => tn.user.length + tn.assistant.length) 8000
    ⟨[⟨"hello", "shalom"⟩], [⟨"Avot", 1, "Moses received the Torah"⟩]⟩
    "Who is wealthy?" ⟨"model overloaded"⟩ rfl
